import Mathlib

/-
Verification development for the PSGPy sleep-cycle detection library.

The embedding models the two core modules:
  * PSGPy/hypno.py           (loading, run encoding, awakening flags, resampling)
  * PSGPy/cycle_detection.py (NREM run filtering, segregation, offset resolution, merge)

Conventions of the embedding:
  * Times (minutes) are rationals.
  * A pandas DataFrame of hypnogram rows is a `List HEntry`, in row order; the
    pandas integer index label of a row is its 0-based position in the list
    (the loader builds a default RangeIndex via reset_index, so label = position).
  * Raised Python exceptions (AssertionError for config checks, IndexError for
    out-of-bounds `iloc[-1]` / `index[-1]` access, AssertionError for the
    resampler duration check) are modelled as `PResult.error` values, named
    after the spec's error taxonomy.
  * pandas `groupby(key)` iterates groups in ascending *string* order of the
    key (sort=True default; Python compares strings lexicographically by code
    point); this is modelled by `sortKeys`, which sorts the distinct keys with
    the code-point order `strLE`.
  * `float -> int` casts via `.astype("int")` truncate toward zero; this is
    `intTrunc`.
-/

attribute [local semireducible] Rat.add Rat.mul Rat.sub Rat.inv Rat.ofScientific

-- ------------------------------------------------------------------
-- Basic data model (spec section 3, hypno.py columns)
-- ------------------------------------------------------------------

/-- Sleep stage labels: one of W, N1, N2, N3, R (hypno.py hypno_map keys). -/
inductive Stage
  | W
  | N1
  | N2
  | N3
  | R
deriving DecidableEq, Repr

/-- Coarse sleep class (hypno.py `_read_hypno` mapping column "Sleep"). -/
inductive SleepClass
  | Wake
  | NREM
  | REM
deriving DecidableEq, Repr

/-- The mapping {W: Wake, N1: NREM, N2: NREM, N3: NREM, R: REM} from `_read_hypno`. -/
def Stage.sleep : Stage → SleepClass
  | .W => .Wake
  | .N1 => .NREM
  | .N2 => .NREM
  | .N3 => .NREM
  | .R => .REM

/-- The numeric stage code {W:0, N1:1, N2:2, N3:3, R:4} ("StageN"). -/
def Stage.numeric : Stage → ℕ
  | .W => 0
  | .N1 => 1
  | .N2 => 2
  | .N3 => 3
  | .R => 4

/-- Awakening kind assigned by `_flag_awakenings` (column "Awakening"). -/
inductive Awakening
  | Short
  | Long
deriving DecidableEq, Repr

/-- Errors raised by the modelled code, named after the spec's taxonomy:
`invalidConfig` models the AssertionError of the threshold sanity check,
`indexError` models the IndexError of `iloc[-1]` / `index[-1]` on an empty
frame, `inconsistentDuration` models the resampler's AssertionError. -/
inductive PSGError
  | invalidConfig
  | indexError
  | inconsistentDuration
deriving DecidableEq, Repr

/-- Result of a fallible function: a value, or a raised error. -/
inductive PResult (α : Type)
  | ok (val : α)
  | error (err : PSGError)
deriving DecidableEq, Repr

/-- Whether a result is a success. -/
def PResult.isOk {α : Type} : PResult α → Bool
  | .ok _ => true
  | .error _ => false

/-- Extract the success value, if any. -/
def PResult.toOption {α : Type} : PResult α → Option α
  | .ok v => some v
  | .error _ => none

/-- A raw hypnogram row as produced by the (out-of-scope) loader:
columns Entry (1-based id), Onset, Duration (minutes), Stage. -/
structure BEntry where
  entry : ℕ
  onset : ℚ
  duration : ℚ
  stage : Stage
deriving DecidableEq, Repr

/-- A fully annotated hypnogram row, after `_identify_runs` and
`_flag_awakenings`: adds Run (column "Run"), Sleep_Runlength and Awakening.
The "Sleep" and "Sleep_Run" columns are derived (`Stage.sleep`,
`sleepRunKey`). -/
structure HEntry where
  entry : ℕ
  onset : ℚ
  duration : ℚ
  stage : Stage
  run : ℕ
  runlength : ℚ
  awakening : Option Awakening
deriving DecidableEq, Repr

-- ------------------------------------------------------------------
-- String keys and the pandas groupby ordering
-- ------------------------------------------------------------------

/-- Code-point lexicographic comparison of character lists, as Python
compares strings. -/
def charsLe : List Char → List Char → Bool
  | [], _ => true
  | _ :: _, [] => false
  | a :: as, b :: bs =>
    if a.toNat < b.toNat then true
    else if b.toNat < a.toNat then false
    else charsLe as bs

/-- Python string order (code-point lexicographic), as a proposition. -/
def strLE (a b : String) : Prop := charsLe a.data b.data = true

instance : DecidableRel strLE := fun a b => instDecidableEqBool (charsLe a.data b.data) true

/-- Insert into a list sorted by `strLE`, keeping it sorted. -/
def insertSorted (x : String) : List String → List String
  | [] => [x]
  | y :: ys => if charsLe x.data y.data then x :: y :: ys else y :: insertSorted x ys

/-- Insertion sort by `strLE`. -/
def insSort : List String → List String
  | [] => []
  | x :: xs => insertSorted x (insSort xs)

/-- Remove duplicates, keeping first occurrences. -/
def dedupKeys : List String → List String
  | [] => []
  | k :: ks => k :: (dedupKeys ks).filter (fun k2 => decide (¬ k2 = k))

/-- The distinct keys of a column in ascending string order: exactly the
iteration order of `DataFrame.groupby(key)` (sort=True default). -/
def sortKeys (ks : List String) : List String := insSort (dedupKeys ks)

/-- `str(n).zfill(3)`: decimal digits left-padded with zeros to width 3. -/
def zfill3 (n : ℕ) : String :=
  let s := toString n
  if s.length < 3 then String.mk (List.replicate (3 - s.length) '0') ++ s else s

/-- The "Wake"/"NREM"/"REM" strings used in the "Sleep" column. -/
def sleepClassStr : SleepClass → String
  | .Wake => "Wake"
  | .NREM => "NREM"
  | .REM => "REM"

/-- The composite "Sleep_Run" key: Sleep + "_" + zero-padded run number
(hypno.py `_identify_runs`). -/
def sleepRunKey (e : HEntry) : String :=
  sleepClassStr e.stage.sleep ++ "_" ++ zfill3 e.run

-- ------------------------------------------------------------------
-- hypno.py: _identify_runs, _flag_awakenings, load_hypnogram
-- ------------------------------------------------------------------

/-- Tail of the run numbering: `prev` is the sleep class of the previous row,
`cnt` its run number.  A row gets `cnt + 1` when its class differs from the
previous row's (the cumulative sum of `Sleep.ne(Sleep.shift())`). -/
def runIdsAux (prev : SleepClass) (cnt : ℕ) : List BEntry → List ℕ
  | [] => []
  | e :: rest =>
    let c := if e.stage.sleep = prev then cnt else cnt + 1
    c :: runIdsAux e.stage.sleep c rest

/-- Run numbers for the whole hypnogram; the first row always starts run 1
(its shifted neighbour is NaN, which never equals a class). -/
def runIds : List BEntry → List ℕ
  | [] => []
  | e :: rest => 1 :: runIdsAux e.stage.sleep 1 rest

/-- hypno.py `_identify_runs`: assign run numbers and, per run, the total
duration of its rows ("Sleep_Runlength", a groupby-transform sum over the
"Sleep_Run" key; run numbers are unique per run, so summing over equal run
numbers is the same grouping). `awakening` is not yet set. -/
def identify_runs (es : List BEntry) : List HEntry :=
  let pairs := es.zip (runIds es)
  pairs.map (fun p =>
    { entry := p.1.entry
      onset := p.1.onset
      duration := p.1.duration
      stage := p.1.stage
      run := p.2
      runlength := ((pairs.filter (fun q => decide (q.2 = p.2))).map (fun q => q.1.duration)).sum
      awakening := none })

/-- hypno.py `_flag_awakenings`: asserts the threshold is positive (modelled
as `invalidConfig`), then marks Wake rows Short (`duration <= thresh`) or
Long (`duration > thresh`); other rows keep a null Awakening. -/
def flag_awakenings (hypno : List HEntry) (thresh : ℚ) : PResult (List HEntry) :=
  if 0 < thresh then
    .ok (hypno.map (fun e =>
      if e.stage = Stage.W then
        { e with awakening := some (if e.duration ≤ thresh then Awakening.Short else Awakening.Long) }
      else e))
  else .error .invalidConfig

/-- hypno.py `load_hypnogram` minus the file reading: run identification
followed by awakening flagging. -/
def load_hypnogram (es : List BEntry) (wake_thresh : ℚ) : PResult (List HEntry) :=
  flag_awakenings (identify_runs es) wake_thresh

-- ------------------------------------------------------------------
-- hypno.py: resample_hypnogram
-- ------------------------------------------------------------------

/-- Truncation toward zero of a rational, i.e. numpy `.astype("int")` on a
float (C cast semantics). -/
def intTrunc (q : ℚ) : ℤ :=
  if 0 ≤ q.num then Int.ofNat (q.num.toNat / q.den) else -(Int.ofNat ((-q.num).toNat / q.den))

/-- Floor of a rational, computed on the reduced numerator/denominator. -/
def ratFloor (q : ℚ) : ℤ :=
  if 0 ≤ q.num then Int.ofNat (q.num.toNat / q.den)
  else -(Int.ofNat (((-q.num).toNat + q.den - 1) / q.den))

/-- Modelled from the spec: the spec's `round(x)` (section 4.7) is Python's
built-in `round`, which rounds half to even.  `2 * (q - floor q)` is compared
with 1 through the integer `2 * (q.num - floor q * q.den)` against `q.den`.
This definition exists only to compare the spec's wording against the code,
which truncates instead (`intTrunc`). -/
def specRound (q : ℚ) : ℤ :=
  let f := ratFloor q
  let r2 : ℤ := 2 * (q.num - f * (q.den : ℤ))
  if r2 < (q.den : ℤ) then f
  else if (q.den : ℤ) < r2 then f + 1
  else if f % 2 = 0 then f else f + 1

/-- The epoch expansion of `np.repeat(column, ntimes)`: row at position `k`
(its index label) is repeated `int(duration * 2)` times; the output position
of a pair is its 0-based epoch number. -/
def expandFrom (k : ℕ) : List HEntry → List (ℕ × HEntry)
  | [] => []
  | e :: rest => List.replicate (intTrunc (e.duration * 2)).toNat (k, e) ++ expandFrom (k + 1) rest

/-- hypno.py `resample_hypnogram` (without the optional cycle column, which
only adds a repeated column): at 2 epochs per minute, each row contributes
`int(duration * 2)` epochs; the assertion compares the summed counts to
`int((last.Onset + last.Duration) * 2)` and fails ("Inconsistent durations")
on mismatch.  `iloc[-1]` on an empty frame raises IndexError. -/
def resample_hypnogram (hypno : List HEntry) : PResult (List (ℕ × HEntry)) :=
  match hypno.getLast? with
  | none => .error .indexError
  | some le =>
    if (hypno.map (fun e => intTrunc (e.duration * 2))).sum
        = intTrunc ((le.onset + le.duration) * 2) then
      .ok (expandFrom 0 hypno)
    else .error .inconsistentDuration

-- ------------------------------------------------------------------
-- cycle_detection.py: _detect_NREM_runs
-- ------------------------------------------------------------------

/-- A row of the run table produced by `_detect_NREM_runs`: the first row of
a qualifying NREM run, plus the "Offset" column (Onset + Sleep_Runlength). -/
structure Run1 where
  row : HEntry
  offset : ℚ
deriving DecidableEq, Repr

/-- cycle_detection.py `_detect_NREM_runs`: keep rows with Sleep == "NREM"
and Sleep_Runlength > min_length, group them by "Sleep_Run" (groups iterate
in ascending string-key order) and take the first row of each group, then add
Offset = Onset + Sleep_Runlength.  No validation of `min_length` is
performed. -/
def detect_NREM_runs (hypno : List HEntry) (min_length : ℚ) : List Run1 :=
  let sel := hypno.filter (fun e =>
    decide (e.stage.sleep = SleepClass.NREM ∧ min_length < e.runlength))
  (sortKeys (sel.map sleepRunKey)).filterMap (fun k =>
    match sel.filter (fun e => decide (sleepRunKey e = k)) with
    | [] => none
    | e :: _ => some ⟨e, e.onset + e.runlength⟩)

-- ------------------------------------------------------------------
-- cycle_detection.py: _segregate_NREM_runs
-- ------------------------------------------------------------------

/-- A run-table row after `_segregate_NREM_runs`: adds "Next_Run" (gap to the
next run's onset; NaN = `none` for the last row) and the cycle group number
behind the "CYC" string column. -/
structure Run2 where
  row : HEntry
  offset : ℚ
  nextRun : Option ℚ
  cycNum : ℕ
deriving DecidableEq, Repr

/-- The string stored in the "CYC" column: "CYC_" + str(group number). -/
def Run2.cyc (r : Run2) : String := "CYC_" ++ toString r.cycNum

/-- Core of `_segregate_NREM_runs`.  `Next_Run` of row i is
`Onset[i+1] - Offset[i]` (NaN on the last row).  The cycle numbers are
`(1 + condition.cumsum()).shift(fill_value=1)` where
`condition = Next_Run > min_separation`: the first row gets `cnt` (initially
1) and the counter increments after a row whose gap exceeds the threshold
(NaN compares False, so a trailing NaN never increments). -/
def segregateAux (sep : ℚ) (cnt : ℕ) : List Run1 → List Run2
  | [] => []
  | [a] => [⟨a.row, a.offset, none, cnt⟩]
  | a :: b :: rest =>
    ⟨a.row, a.offset, some (b.row.onset - a.offset), cnt⟩ ::
      segregateAux sep (if sep < b.row.onset - a.offset then cnt + 1 else cnt) (b :: rest)

/-- cycle_detection.py `_segregate_NREM_runs`. -/
def segregate_NREM_runs (runs : List Run1) (min_separation : ℚ) : List Run2 :=
  segregateAux min_separation 1 runs

/-- The sequence of cycle group numbers assigned by `_segregate_NREM_runs`
(the numeric part of the "CYC" column), in run order. -/
def cycleNumbers (runs : List Run1) (sep : ℚ) : List ℕ :=
  (segregate_NREM_runs runs sep).map Run2.cycNum

-- ------------------------------------------------------------------
-- cycle_detection.py: _detect_cycle_offsets
-- ------------------------------------------------------------------

/-- Which of the three termination rules fired ("Offset_Mode"). -/
inductive OffsetMode
  | Last_REM
  | Last_N3_Before_Awakening
  | Long_Awakening
deriving DecidableEq, Repr

/-- A resolved cycle record, as aggregated into the `cycles` list of dicts.
Entry ids are 1-based; `offsetEntry`, `onsetIdx`, `offsetIdx` are integers
because the code subtracts 1 from them. -/
structure SleepCycle where
  cyc : String
  onset : ℚ
  offset : ℚ
  duration : ℚ
  mode : OffsetMode
  onsetEntry : ℕ
  offsetEntry : ℤ
  onsetIdx : ℤ
  offsetIdx : ℤ
deriving DecidableEq, Repr

/-- The search window: rows of the hypnogram (paired with their index
labels) whose Onset is strictly between the bounds:
`hypno.loc[(hypno["Onset"] > lowerlim) & (hypno["Onset"] < upperlim)]`. -/
def windowOf (hypno : List HEntry) (lowerlim upperlim : ℚ) : List (ℕ × HEntry) :=
  hypno.enum.filter (fun p => decide (lowerlim < p.2.onset ∧ p.2.onset < upperlim))

/-- Window predicate for rule 1: Sleep == "REM". -/
def isREMp (p : ℕ × HEntry) : Bool := decide (p.2.stage.sleep = SleepClass.REM)

/-- Window predicate inside rule 2: Stage == "N3". -/
def isN3p (p : ℕ × HEntry) : Bool := decide (p.2.stage = Stage.N3)

/-- Window predicate for rule 3: Awakening == "Long" (a null Awakening
compares False, like NaN == "Long"). -/
def isLongp (p : ℕ × HEntry) : Bool := decide (p.2.awakening = some Awakening.Long)

/-- The first N3 row immediately followed (next row of the window) by a W
row: `Stage + "_" + Stage.shift(-1) == "N3_W"`, first match by position
(the shifted last row is NaN and never matches). -/
def firstN3W : List (ℕ × HEntry) → Option (ℕ × HEntry)
  | (i, a) :: (j, b) :: rest =>
    if a.stage = Stage.N3 ∧ b.stage = Stage.W then some (i, a)
    else firstN3W ((j, b) :: rest)
  | _ => none

/-- Rule 3 (Long_Awakening): first window row with Awakening == "Long";
offset is its Onset, offset entry its Entry minus 1, offset index its label
minus 1.  `none` when no rule fired: the cycle is dropped. -/
def resolveRule3 (c0 : Run2) (win : List (ℕ × HEntry)) : Option SleepCycle :=
  match win.find? isLongp with
  | some (i, e) =>
    some ⟨c0.cyc, c0.row.onset, e.onset, e.onset - c0.row.onset, .Long_Awakening,
          c0.row.entry, (e.entry : ℤ) - 1, (c0.row.entry : ℤ) - 1, (i : ℤ) - 1⟩
  | none => none

/-- The three sequential termination criteria of `_detect_cycle_offsets`,
applied to the window of one cycle group whose first run-table row is `c0`:
1. last REM row; 2. first N3→W transition (guarded by `any(Stage == "N3")`);
3. first Long awakening; otherwise the group yields no cycle. -/
def resolveRules (c0 : Run2) (win : List (ℕ × HEntry)) : Option SleepCycle :=
  match (win.filter isREMp).getLast? with
  | some (i, e) =>
    some ⟨c0.cyc, c0.row.onset, e.onset + e.duration, e.onset + e.duration - c0.row.onset,
          .Last_REM, c0.row.entry, (e.entry : ℤ), (c0.row.entry : ℤ) - 1, (i : ℤ)⟩
  | none =>
    if win.any isN3p then
      match firstN3W win with
      | some (i, e) =>
        some ⟨c0.cyc, c0.row.onset, e.onset + e.duration, e.onset + e.duration - c0.row.onset,
              .Last_N3_Before_Awakening, c0.row.entry, (e.entry : ℤ), (c0.row.entry : ℤ) - 1,
              (i : ℤ)⟩
      | none => resolveRule3 c0 win
    else resolveRule3 c0 win

/-- One iteration of the groupby loop in `_detect_cycle_offsets`: `chunk` is
the run-table rows of one "CYC" group, in run order.  The lower limit is the
first row's Onset, the upper limit the last row's Offset + Next_Run (a NaN
Next_Run would make every Onset comparison False, so the window is empty and
no rule can fire). -/
def resolveGroup (hypno : List HEntry) (chunk : List Run2) : Option SleepCycle :=
  match chunk.head?, chunk.getLast? with
  | some c0, some cl =>
    match cl.nextRun with
    | some g => resolveRules c0 (windowOf hypno c0.row.onset (cl.offset + g))
    | none => none
  | _, _ => none

/-- Overwrite the last run-table row's Next_Run with
`end of recording - its Offset` (the first statement of
`_detect_cycle_offsets`). -/
def setLastNextRun : List Run2 → ℚ → List Run2
  | [], _ => []
  | [r], endRec => [{ r with nextRun := some (endRec - r.offset) }]
  | r :: s :: rest, endRec => r :: setLastNextRun (s :: rest) endRec

/-- cycle_detection.py `_detect_cycle_offsets`.  The initial statement
evaluates `hypno.iloc[-1]` and `runs.loc[runs.index[-1], ...]`: on an empty
hypnogram or an empty run table this raises IndexError.  Then the run table
is grouped by the "CYC" string key (ascending string order) and each group is
resolved; unresolved groups are silently dropped. -/
def detect_cycle_offsets (hypno : List HEntry) (runs : List Run2) :
    PResult (List SleepCycle) :=
  match hypno.getLast?, runs.getLast? with
  | some he, some _ =>
    let runs2 := setLastNextRun runs (he.onset + he.duration)
    .ok ((sortKeys (runs2.map Run2.cyc)).filterMap (fun k =>
      resolveGroup hypno (runs2.filter (fun r => decide (r.cyc = k)))))
  | _, _ => .error .indexError

/-- cycle_detection.py `detect_cycles`: the three stages composed.  No
validation of `min_length` or `min_separation` is performed. -/
def detect_cycles (hypno : List HEntry) (min_length min_separation : ℚ) :
    PResult (List SleepCycle) :=
  detect_cycle_offsets hypno
    (segregate_NREM_runs (detect_NREM_runs hypno min_length) min_separation)

-- ------------------------------------------------------------------
-- State-passing form of detect_cycles (frame effect on the hypnogram)
-- ------------------------------------------------------------------

/-- `_detect_NREM_runs` with the hypnogram threaded through: boolean-mask
`.loc` indexing and `groupby(...).apply(...)` both build new frames, so the
writes `runs["Offset"] = ...` land on a fresh table and the hypnogram object
is returned as received. -/
def detect_NREM_runs_st (hypno : List HEntry) (min_length : ℚ) :
    List HEntry × List Run1 :=
  (hypno, detect_NREM_runs hypno min_length)

/-- `_detect_cycle_offsets` with the hypnogram threaded through: the only
write (`runs.loc[runs.index[-1], "Next_Run"] = ...`) targets the run table;
`dat_win` is only read.  The hypnogram object is returned as received. -/
def detect_cycle_offsets_st (hypno : List HEntry) (runs : List Run2) :
    List HEntry × PResult (List SleepCycle) :=
  (hypno, detect_cycle_offsets hypno runs)

/-- `detect_cycles` as a transformer of the hypnogram state: the pair of the
hypnogram object after the call and the returned cycle table. -/
def detect_cycles_state (hypno : List HEntry) (min_length min_separation : ℚ) :
    List HEntry × PResult (List SleepCycle) :=
  let s1 := detect_NREM_runs_st hypno min_length
  let runs2 := segregate_NREM_runs s1.2 min_separation
  detect_cycle_offsets_st s1.1 runs2

-- ------------------------------------------------------------------
-- cycle_detection.py: update_hypnogram_cycles
-- ------------------------------------------------------------------

/-- The three cycle columns written by the merge ("Cycle_Num",
"Cycle_Duration", "Cycle_Offset_Mode"); a `none` field is a NaN cell. -/
structure CycFields where
  num : Option String
  dur : Option ℚ
  mode : Option OffsetMode
deriving DecidableEq, Repr

/-- The cell values written for one cycle. -/
def cycFieldsOf (c : SleepCycle) : CycFields := ⟨some c.cyc, some c.duration, some c.mode⟩

/-- Row at index label `i` is inside the label slice
`hypno.loc[c.Onset_idx : c.Offset_idx]` (inclusive on both label ends). -/
def covers (c : SleepCycle) (i : ℕ) : Prop := c.onsetIdx ≤ (i : ℤ) ∧ (i : ℤ) ≤ c.offsetIdx

instance coversDec (c : SleepCycle) (i : ℕ) : Decidable (covers c i) :=
  inferInstanceAs (Decidable (_ ∧ _))

/-- Write one cycle's cells over the rows of the label range, `k` being the
label of the first row of the remaining list. -/
def writeCycleFrom (c : SleepCycle) (k : ℕ) : List CycFields → List CycFields
  | [] => []
  | f :: fs => (if covers c k then cycFieldsOf c else f) :: writeCycleFrom c (k + 1) fs

/-- One iteration of the merge loop: `hypno.loc[start:end, col] = value` for
the three cycle columns. -/
def writeCycle (fs : List CycFields) (c : SleepCycle) : List CycFields :=
  writeCycleFrom c 0 fs

/-- cycle_detection.py `update_hypnogram_cycles`: iterate over the cycle
table, writing the three cycle columns over the label range
`[Onset_idx, Offset_idx]` of each cycle (later cycles overwrite earlier
ones).  The columns come into existence at the first assignment, initialised
to NaN outside the written range; with an empty cycle table the loop body
never runs and the hypnogram is returned unchanged, without the columns. -/
def update_hypnogram_cycles (hypno : List HEntry) (cycles : List SleepCycle) :
    List HEntry × Option (List CycFields) :=
  match cycles with
  | [] => (hypno, none)
  | _ :: _ => (hypno, some (cycles.foldl writeCycle (hypno.map (fun _ => CycFields.mk none none none))))

/-- The claim's per-entry membership: the row's Entry id lies in the
inclusive id range `[Onset_Entry, Offset_Entry]` of the cycle. -/
def entryInCycle (c : SleepCycle) (e : HEntry) : Prop :=
  (c.onsetEntry : ℤ) ≤ (e.entry : ℤ) ∧ (e.entry : ℤ) ≤ c.offsetEntry

instance entryInCycleDec (c : SleepCycle) (e : HEntry) : Decidable (entryInCycle c e) :=
  inferInstanceAs (Decidable (_ ∧ _))

/-- Onsets of a returned cycle table (empty on a raised error). -/
def cycleOnsets (r : PResult (List SleepCycle)) : List ℚ :=
  match r with
  | .ok cs => cs.map (fun c => c.onset)
  | .error _ => []

/-- Boolean check that a list of rationals is nondecreasing. -/
def nondecQ : List ℚ → Bool
  | [] => true
  | [_] => true
  | a :: b :: rest => decide (a ≤ b) && nondecQ (b :: rest)

-- ------------------------------------------------------------------
-- Concrete recordings used by witnesses and counterexamples
-- ------------------------------------------------------------------

/-- A recording containing only Wake and REM entries (no NREM at all). -/
def rawWR : List BEntry := [⟨1, 0, 5, .W⟩, ⟨2, 5, 10, .R⟩, ⟨3, 15, 5, .W⟩]

/-- The Wake/REM-only hypnogram, loaded with the default wake threshold. -/
def hWR : List HEntry := (load_hypnogram rawWR 2).toOption.getD []

/-- A minimal recording: a 20-minute N2 run, a 10-minute REM period, a final
5-minute (long) awakening. -/
def rawSimple : List BEntry := [⟨1, 0, 20, .N2⟩, ⟨2, 20, 10, .R⟩, ⟨3, 30, 5, .W⟩]

/-- The loaded minimal recording. -/
def hSimple : List HEntry := (load_hypnogram rawSimple 2).toOption.getD []

/-- First row of `hSimple` after loading. -/
def eN2 : HEntry := ⟨1, 0, 20, Stage.N2, 1, 20, none⟩

/-- Second row of `hSimple` after loading. -/
def eREM : HEntry := ⟨2, 20, 10, Stage.R, 2, 10, none⟩

/-- The run-table row of `hSimple` before the Next_Run overwrite (its gap is
still NaN). -/
def runSimple0 : Run2 := ⟨eN2, 20, none, 1⟩

/-- The run-table row of `hSimple` with its gap-to-end filled in
(end of recording 35 minus offset 20). -/
def runSimple : Run2 := ⟨eN2, 20, some 15, 1⟩

/-- The single cycle detected on `hSimple`. -/
def cycSimple : SleepCycle := ⟨"CYC_1", 0, 30, 30, .Last_REM, 1, 2, 0, 1⟩

/-- A cycle record covering entries 2..3 (labels 1..2), used by the merge
witness. -/
def wCyc : SleepCycle := ⟨"CYC_1", 0, 30, 30, .Last_REM, 2, 3, 1, 2⟩

/-- Building block of the ten-cycle recording: a 20-minute N2 run followed
by a 10-minute REM period, the k-th block starting at minute 100 k. -/
def blockNR (k : ℕ) : List BEntry :=
  [⟨2*k+1, (100*k : ℚ), 20, Stage.N2⟩, ⟨2*k+2, (100*k+20 : ℚ), 10, Stage.R⟩]

/-- A recording with ten well-separated NREM+REM blocks, hence ten cycle
groups CYC_1 .. CYC_10. -/
def rawTen : List BEntry := (List.range 10).flatMap blockNR

/-- The loaded ten-block recording. -/
def hTen : List HEntry := (load_hypnogram rawTen 2).toOption.getD []

/-- A single 45-second (3/4-minute) N2 entry: 3/4 · 2 = 1.5 epochs, which
truncation (1) and round-half-even (2) treat differently. -/
def hFrac : List HEntry := (load_hypnogram [⟨1, 0, 3/4, .N2⟩] 2).toOption.getD []

/-- The single row of `hFrac` after loading. -/
def eFrac : HEntry := ⟨1, 0, 3/4, Stage.N2, 1, 3/4, none⟩

/-- A single 2-minute N2 entry with consistent durations. -/
def hOne : List HEntry := (load_hypnogram [⟨1, 0, 2, .N2⟩] 2).toOption.getD []

/-- The single row of `hOne` after loading. -/
def eOne : HEntry := ⟨1, 0, 2, Stage.N2, 1, 2, none⟩

/-- A recording for the Long_Awakening rule: N2 run, 5-minute awakening,
N2 again — no REM and no N3 anywhere. -/
def raw8 : List BEntry := [⟨1, 0, 20, .N2⟩, ⟨2, 20, 5, .W⟩, ⟨3, 25, 10, .N2⟩]

/-- The loaded Long_Awakening recording. -/
def h8 : List HEntry := (load_hypnogram raw8 2).toOption.getD []

/-- First row of `h8` after loading. -/
def h8e1 : HEntry := ⟨1, 0, 20, Stage.N2, 1, 20, none⟩

/-- Second row of `h8` after loading: the long awakening. -/
def h8e2 : HEntry := ⟨2, 20, 5, Stage.W, 2, 5, some Awakening.Long⟩

/-- Run-table row of `h8` with its gap-to-end filled in. -/
def run8 : Run2 := ⟨h8e1, 20, some 15, 1⟩

/-- A two-row run table whose gap (40 − 20 = 20) exceeds the threshold 10. -/
def runA : Run1 := ⟨eN2, 20⟩

/-- Second run of the two-row run table, starting at minute 40. -/
def runB : Run1 := ⟨⟨5, 40, 100, Stage.N2, 3, 100, none⟩, 140⟩

-- ------------------------------------------------------------------
-- C1: empty / non-qualifying recordings raise IndexError
-- ------------------------------------------------------------------

/-- C1 (amended): whenever no NREM run qualifies — in particular for an
empty entry sequence and for a Wake/REM-only recording — `detect_cycles`
does not return an empty cycle sequence: it raises an IndexError, because
`_detect_cycle_offsets` indexes the last row of the (empty) run table
(`runs.index[-1]`; for the empty hypnogram already `hypno.iloc[-1]`), for
every `min_length` and `min_separation`. -/
theorem detect_cycles_err_of_no_runs (hypno : List HEntry) (ml ms : ℚ)
    (hno : detect_NREM_runs hypno ml = []) :
    detect_cycles hypno ml ms = .error .indexError := by
  unfold detect_cycles
  rw [hno]
  unfold segregate_NREM_runs segregateAux detect_cycle_offsets
  cases hypno.getLast? <;> rfl

/-- Witness for C1's amended theorem at the Wake/REM-only recording. -/
theorem detect_cycles_err_of_no_runs_witness :
    detect_cycles hWR 10 10 = .error .indexError :=
  detect_cycles_err_of_no_runs hWR 10 10 (by decide)

/-- Counterexample to C1 as stated: on the Wake/REM-only recording with
positive thresholds, `detect_cycles` does not return an empty cycle
sequence — it raises (IndexError). -/
theorem detect_cycles_empty_claim_cex :
    ¬ detect_cycles hWR 10 10 = .ok ([] : List SleepCycle) ∧
    detect_cycles hWR 10 10 = .error .indexError := by
  constructor
  · decide
  · decide

-- ------------------------------------------------------------------
-- C6: threshold validation
-- ------------------------------------------------------------------

/-- C6 (amended): the AwakeningClassifier (`_flag_awakenings`) fails with
the configuration assertion exactly when `wake_thresh` is not positive,
before touching any entry.  (`detect_cycles` performs no such validation of
`min_length`; see the counterexample.) -/
theorem flag_awakenings_invalidConfig (hypno : List HEntry) (t : ℚ) :
    flag_awakenings hypno t = .error .invalidConfig ↔ t ≤ 0 := by
  by_cases h : 0 < t
  · simp only [flag_awakenings, if_pos h]
    constructor
    · intro hc
      exact absurd hc (by simp)
    · intro hc
      linarith
  · simp only [flag_awakenings, if_neg h]
    constructor
    · intro _
      linarith [not_lt.mp h]
    · intro _
      trivial

/-- Counterexample to C6 as stated: `detect_cycles` accepts the non-positive
`min_length = -1` and completes successfully instead of failing with
InvalidConfig. -/
theorem detect_cycles_no_min_length_check_cex :
    ¬ detect_cycles hSimple (-1) 10 = .error .invalidConfig ∧
    (detect_cycles hSimple (-1) 10).isOk = true := by
  constructor
  · decide
  · decide

-- ------------------------------------------------------------------
-- C9: detect_cycles leaves the hypnogram unchanged
-- ------------------------------------------------------------------

/-- C9: `detect_cycles` never modifies its input hypnogram: in the
state-passing form (which threads the hypnogram object through the three
stages, every write of which targets the freshly built run table), the
hypnogram component of the result is the input itself, and the cycle
component is exactly `detect_cycles`. -/
theorem detect_cycles_preserves_hypnogram (hypno : List HEntry) (ml ms : ℚ) :
    (detect_cycles_state hypno ml ms).1 = hypno ∧
    (detect_cycles_state hypno ml ms).2 = detect_cycles hypno ml ms :=
  ⟨rfl, rfl⟩

-- ------------------------------------------------------------------
-- C10: merging an empty cycle table is the identity
-- ------------------------------------------------------------------

/-- C10: with an empty cycle table, `update_hypnogram_cycles` returns the
input hypnogram unchanged and creates no cycle columns at all (the second
component is `none`, not a column of nulls). -/
theorem update_hypnogram_cycles_empty (hypno : List HEntry) :
    update_hypnogram_cycles hypno [] = (hypno, none) := rfl

-- ------------------------------------------------------------------
-- C2: the Last_REM rule
-- ------------------------------------------------------------------

/-- C2: for a cycle group `chunk` (first row `c0`, last row `cl`, gap-to-next
`g`), the offset search looks only at `windowOf hypno c0.row.onset
(cl.offset + g)` — the rows whose Onset is strictly between the group's
first run onset and its last run offset plus the gap-to-next — and whenever
that window contains a REM row, the resolved cycle is Last_REM: its offset
is Onset + Duration of the last REM row (in row = onset order), its offset
entry is that row's Entry, and rules 2 and 3 are not consulted (the record
below is produced unconditionally of them). -/
theorem resolveGroup_last_REM (hypno : List HEntry) (chunk : List Run2)
    (c0 cl : Run2) (g : ℚ) (i : ℕ) (e : HEntry)
    (h0 : chunk.head? = some c0) (hl : chunk.getLast? = some cl)
    (hg : cl.nextRun = some g)
    (hrem : ((windowOf hypno c0.row.onset (cl.offset + g)).filter isREMp).getLast?
        = some (i, e)) :
    resolveGroup hypno chunk =
      some ⟨c0.cyc, c0.row.onset, e.onset + e.duration,
            e.onset + e.duration - c0.row.onset, .Last_REM, c0.row.entry,
            (e.entry : ℤ), (c0.row.entry : ℤ) - 1, (i : ℤ)⟩ := by
  simp only [resolveGroup, h0, hl, hg, resolveRules, hrem]

/-- Witness for C2 on the minimal recording: the window (0, 35) holds the
REM row (label 1) and the resolved cycle ends at 20 + 10 = 30. -/
theorem resolveGroup_last_REM_witness :
    resolveGroup hSimple [runSimple] =
      some ⟨runSimple.cyc, runSimple.row.onset, eREM.onset + eREM.duration,
            eREM.onset + eREM.duration - runSimple.row.onset, .Last_REM,
            runSimple.row.entry, (eREM.entry : ℤ), (runSimple.row.entry : ℤ) - 1,
            ((1 : ℕ) : ℤ)⟩ :=
  resolveGroup_last_REM hSimple [runSimple] runSimple runSimple 15 1 eREM
    (by decide) (by decide) (by decide) (by decide)

-- ------------------------------------------------------------------
-- C8: the Long_Awakening rule
-- ------------------------------------------------------------------

/-- C8: for a cycle group whose window contains no REM row and no N3 row
immediately followed by a W row, but at least one row with a Long awakening,
the resolved cycle is Long_Awakening: its offset is the Onset of the first
such row (in row = onset order), and its offset entry is that row's Entry
minus one. -/
theorem resolveGroup_long_awakening (hypno : List HEntry) (chunk : List Run2)
    (c0 cl : Run2) (g : ℚ) (i : ℕ) (e : HEntry)
    (h0 : chunk.head? = some c0) (hl : chunk.getLast? = some cl)
    (hg : cl.nextRun = some g)
    (hnorem : ((windowOf hypno c0.row.onset (cl.offset + g)).filter isREMp).getLast?
        = none)
    (hnopair : firstN3W (windowOf hypno c0.row.onset (cl.offset + g)) = none)
    (hlong : (windowOf hypno c0.row.onset (cl.offset + g)).find? isLongp = some (i, e)) :
    resolveGroup hypno chunk =
      some ⟨c0.cyc, c0.row.onset, e.onset, e.onset - c0.row.onset, .Long_Awakening,
            c0.row.entry, (e.entry : ℤ) - 1, (c0.row.entry : ℤ) - 1, (i : ℤ) - 1⟩ := by
  simp only [resolveGroup, h0, hl, hg, resolveRules, hnorem]
  by_cases hn3 : (windowOf hypno c0.row.onset (cl.offset + g)).any isN3p
  · simp only [hn3, if_true, hnopair, resolveRule3, hlong]
  · have hb : (windowOf hypno c0.row.onset (cl.offset + g)).any isN3p = false := by
      simpa using hn3
    simp only [hb, Bool.false_eq_true, if_false, resolveRule3, hlong]

/-- Witness for C8 on the N2/W/N2 recording: the window (0, 35) holds the
long awakening (label 1) and the following N2 row; the cycle ends at the
awakening's onset 20 with offset entry 2 − 1 = 1. -/
theorem resolveGroup_long_awakening_witness :
    resolveGroup h8 [run8] =
      some ⟨run8.cyc, run8.row.onset, h8e2.onset, h8e2.onset - run8.row.onset,
            .Long_Awakening, run8.row.entry, (h8e2.entry : ℤ) - 1,
            (run8.row.entry : ℤ) - 1, ((1 : ℕ) : ℤ) - 1⟩ :=
  resolveGroup_long_awakening h8 [run8] run8 run8 15 1 h8e2
    (by decide) (by decide) (by decide) (by decide) (by decide) (by decide)

-- ------------------------------------------------------------------
-- C3: cycle group numbering in the run segregator
-- ------------------------------------------------------------------

/-- The head of a non-empty segregated run table keeps the incoming counter
as its group number. -/
theorem segregateAux_head_cycNum (sep : ℚ) (cnt : ℕ) (a : Run1) (l : List Run1) :
    ((segregateAux sep cnt (a :: l)).map Run2.cycNum).head? = some cnt := by
  cases l <;> simp [segregateAux]

/-- The first row of a non-empty segregated run table carries the incoming
counter as its group number (whatever its gap field is). -/
theorem segregateAux_getElem_zero (sep : ℚ) (cnt : ℕ) (x : Run1) (l : List Run1) :
    ∃ nr, (segregateAux sep cnt (x :: l))[0]? = some ⟨x.row, x.offset, nr, cnt⟩ := by
  cases l with
  | nil => exact ⟨none, by simp [segregateAux]⟩
  | cons b rest => exact ⟨some (b.row.onset - x.offset), by simp [segregateAux]⟩

/-- Stepping one row down the segregated run table adds 1 to the group
number exactly when the gap from the current row to the next exceeds the
separation threshold. -/
theorem segregateAux_cycNum_step (sep : ℚ) :
    ∀ (l : List Run1) (cnt i : ℕ) (ra rb : Run1) (a b : Run2),
    l[i]? = some ra → l[i+1]? = some rb →
    (segregateAux sep cnt l)[i]? = some a →
    (segregateAux sep cnt l)[i+1]? = some b →
    b.cycNum = a.cycNum + (if sep < rb.row.onset - ra.offset then 1 else 0) := by
  intro l
  induction l with
  | nil =>
    intro cnt i ra rb a b h1 h2 h3 h4
    simp at h1
  | cons x tl ih =>
    intro cnt i ra rb a b h1 h2 h3 h4
    cases tl with
    | nil =>
      rw [List.getElem?_cons_succ] at h2
      simp at h2
    | cons y rest =>
      cases i with
      | zero =>
        rw [List.getElem?_cons_zero] at h1
        rw [List.getElem?_cons_succ, List.getElem?_cons_zero] at h2
        have hra : ra = x := (Option.some.inj h1).symm
        have hrb : rb = y := (Option.some.inj h2).symm
        have hx : (segregateAux sep cnt (x :: y :: rest))[0]?
            = some ⟨x.row, x.offset, some (y.row.onset - x.offset), cnt⟩ := by
          cases rest <;> simp [segregateAux]
        have hstep : (segregateAux sep cnt (x :: y :: rest))[1]?
            = (segregateAux sep (if sep < y.row.onset - x.offset then cnt + 1 else cnt)
                (y :: rest))[0]? := by
          cases rest <;> simp [segregateAux]
        rw [hx] at h3
        rw [hstep] at h4
        obtain ⟨nr, hz⟩ := segregateAux_getElem_zero sep
          (if sep < y.row.onset - x.offset then cnt + 1 else cnt) y rest
        rw [hz] at h4
        have ha2 : a = ⟨x.row, x.offset, some (y.row.onset - x.offset), cnt⟩ :=
          (Option.some.inj h3).symm
        have hb2 : b = ⟨y.row, y.offset, nr,
            if sep < y.row.onset - x.offset then cnt + 1 else cnt⟩ :=
          (Option.some.inj h4).symm
        rw [ha2, hb2, hra, hrb]
        by_cases hcond : sep < y.row.onset - x.offset <;> simp [Run2.cycNum, hcond]
      | succ j =>
        rw [List.getElem?_cons_succ] at h1 h2
        have hs : ∀ m : ℕ, (segregateAux sep cnt (x :: y :: rest))[m+1]?
            = (segregateAux sep (if sep < y.row.onset - x.offset then cnt + 1 else cnt)
                (y :: rest))[m]? := by
          intro m
          cases rest <;> simp [segregateAux]
        rw [hs j] at h3
        rw [hs (j+1)] at h4
        exact ih _ j ra rb a b h1 h2 h3 h4

/-- C3: in the run segregator, group numbering starts at 1 and the group
number of run i+1 exceeds that of run i exactly when run i's gap (next run
onset minus run i's offset) exceeds `min_separation`; the number increases
by that one-row-lagged indicator. -/
theorem segregate_numbering (runs : List Run1) (sep : ℚ) (i : ℕ)
    (ra rb : Run1) (a b : ℕ)
    (hra : runs[i]? = some ra) (hrb : runs[i+1]? = some rb)
    (ha : (cycleNumbers runs sep)[i]? = some a)
    (hb : (cycleNumbers runs sep)[i+1]? = some b) :
    (cycleNumbers runs sep).head? = some 1 ∧
    b = a + (if sep < rb.row.onset - ra.offset then 1 else 0) ∧
    (a < b ↔ sep < rb.row.onset - ra.offset) := by
  rw [cycleNumbers, segregate_NREM_runs, List.getElem?_map] at ha hb
  obtain ⟨a2, ha3, ha4⟩ := Option.map_eq_some'.mp ha
  obtain ⟨b2, hb3, hb4⟩ := Option.map_eq_some'.mp hb
  have hstep := segregateAux_cycNum_step sep runs 1 i ra rb a2 b2 hra hrb ha3 hb3
  have hhead : (cycleNumbers runs sep).head? = some 1 := by
    cases runs with
    | nil => simp at hra
    | cons x tl =>
      rw [cycleNumbers, segregate_NREM_runs]
      exact segregateAux_head_cycNum sep 1 x tl
  refine ⟨hhead, ?_, ?_⟩
  · rw [← ha4, ← hb4, hstep]
  · rw [← ha4, ← hb4, hstep]
    split <;> rename_i hcond
    · simpa using hcond
    · simpa using hcond

/-- Witness for C3 on a two-run table with a 20-minute gap over the
threshold 10: numbers are 1 then 2. -/
theorem segregate_numbering_witness :
    (cycleNumbers [runA, runB] 10).head? = some 1 ∧
    2 = 1 + (if (10:ℚ) < runB.row.onset - runA.offset then 1 else 0) ∧
    (1 < 2 ↔ (10:ℚ) < runB.row.onset - runA.offset) :=
  segregate_numbering [runA, runB] 10 0 runA runB 1 2
    (by decide) (by decide) (by decide) (by decide)

-- ------------------------------------------------------------------
-- C5: the epoch resampler
-- ------------------------------------------------------------------

/-- Every epoch produced from source position `k` onward carries a source
label at least `k`. -/
theorem expandFrom_fst_ge :
    ∀ (h : List HEntry) (k : ℕ) (p : ℕ × HEntry), p ∈ expandFrom k h → k ≤ p.1 := by
  intro h
  induction h with
  | nil =>
    intro k p hp
    simp [expandFrom] at hp
  | cons e rest ih =>
    intro k p hp
    rw [show expandFrom k (e :: rest)
        = List.replicate (intTrunc (e.duration * 2)).toNat (k, e) ++ expandFrom (k + 1) rest
        from rfl] at hp
    rcases List.mem_append.mp hp with hp1 | hp2
    · rw [List.eq_of_mem_replicate hp1]
    · exact le_trans (Nat.le_succ k) (ih (k + 1) p hp2)

/-- The number of epochs labelled with source position `k + i` equals the
truncated epoch count of the row at position `i`. -/
theorem expandFrom_countP :
    ∀ (h : List HEntry) (k i : ℕ) (e : HEntry), h[i]? = some e →
      (expandFrom k h).countP (fun p => p.1 == k + i)
        = (intTrunc (e.duration * 2)).toNat := by
  intro h
  induction h with
  | nil =>
    intro k i e he
    simp at he
  | cons x rest ih =>
    intro k i e he
    have hexp : expandFrom k (x :: rest)
        = List.replicate (intTrunc (x.duration * 2)).toNat (k, x) ++ expandFrom (k + 1) rest :=
      rfl
    cases i with
    | zero =>
      rw [List.getElem?_cons_zero] at he
      have hx : x = e := Option.some.inj he
      rw [hexp, List.countP_append]
      have h0 : (expandFrom (k + 1) rest).countP (fun p => p.1 == k + 0) = 0 := by
        rw [List.countP_eq_zero]
        intro p hp
        have hge := expandFrom_fst_ge rest (k + 1) p hp
        simp only [beq_iff_eq]
        omega
      have h1 : (List.replicate (intTrunc (x.duration * 2)).toNat (k, x)).countP
          (fun p => p.1 == k + 0) = (intTrunc (x.duration * 2)).toNat := by
        simp [List.countP_replicate]
      rw [h0, h1, hx]
      omega
    | succ j =>
      rw [List.getElem?_cons_succ] at he
      have hredi : k + (j + 1) = (k + 1) + j := by omega
      rw [hexp, List.countP_append, hredi]
      have h0 : (List.replicate (intTrunc (x.duration * 2)).toNat (k, x)).countP
          (fun p => p.1 == (k + 1) + j) = 0 := by
        rw [List.countP_eq_zero]
        intro p hp
        rw [List.eq_of_mem_replicate hp]
        simp only [beq_iff_eq]
        omega
      rw [h0, ih (k + 1) j e he]
      omega

/-- C5 (amended): at the fixed rate of 2 epochs per minute, the resampler
fails with InconsistentDuration exactly when the sum of the truncated
per-entry epoch counts `int(duration * 2)` differs from
`int((last.onset + last.duration) * 2)` — truncation toward zero
(`.astype("int")`), not rounding — and on success the row at position i
contributes exactly `int(duration_i * 2)` epochs. -/
theorem resample_counts (h : List HEntry) (le : HEntry) (hle : h.getLast? = some le) :
    (resample_hypnogram h = .error .inconsistentDuration ↔
      (h.map (fun e => intTrunc (e.duration * 2))).sum
        ≠ intTrunc ((le.onset + le.duration) * 2)) ∧
    (∀ out, resample_hypnogram h = .ok out →
      ∀ i e, h[i]? = some e →
        (out.countP (fun p => p.1 == i)) = (intTrunc (e.duration * 2)).toNat) := by
  simp only [resample_hypnogram, hle]
  by_cases hc : (h.map (fun e => intTrunc (e.duration * 2))).sum
      = intTrunc ((le.onset + le.duration) * 2)
  · rw [if_pos hc]
    constructor
    · constructor
      · intro hco
        exact absurd hco (by simp)
      · intro hne
        exact absurd hc hne
    · intro out hout i e hie
      have hoe : expandFrom 0 h = out := PResult.ok.inj hout
      rw [← hoe]
      have hcp := expandFrom_countP h 0 i e hie
      simpa using hcp
  · rw [if_neg hc]
    constructor
    · exact iff_of_true rfl hc
    · intro out hout
      exact absurd hout (by simp)

/-- Witness for C5's amended theorem on a single consistent 2-minute row. -/
theorem resample_counts_witness :
    (resample_hypnogram hOne = .error .inconsistentDuration ↔
      (hOne.map (fun e => intTrunc (e.duration * 2))).sum
        ≠ intTrunc ((eOne.onset + eOne.duration) * 2)) ∧
    (∀ out, resample_hypnogram hOne = .ok out →
      ∀ i e, hOne[i]? = some e →
        (out.countP (fun p => p.1 == i)) = (intTrunc (e.duration * 2)).toNat) :=
  resample_counts hOne eOne (by decide)

/-- Counterexample to C5 as stated: on a single 3/4-minute entry the code
emits `int(1.5) = 1` epoch and succeeds, while the claim's
`round(duration * 2) = round(1.5) = 2` predicts two epochs (and, with
truncated counts summing to 1 ≠ 2, a raised InconsistentDuration). -/
theorem resample_round_claim_cex :
    resample_hypnogram hFrac = .ok [(0, eFrac)] ∧
    specRound (eFrac.duration * 2) = 2 ∧
    intTrunc (eFrac.duration * 2) = 1 := by
  refine ⟨by decide, by decide, by decide⟩

-- ------------------------------------------------------------------
-- C4: the cycle merge
-- ------------------------------------------------------------------

/-- Writing a cycle's cells preserves the number of rows. -/
theorem writeCycleFrom_length (c : SleepCycle) :
    ∀ (fs : List CycFields) (k : ℕ), (writeCycleFrom c k fs).length = fs.length := by
  intro fs
  induction fs with
  | nil => intro k; rfl
  | cons f rest ih =>
    intro k
    simp [writeCycleFrom, ih]

/-- The merge loop preserves the number of rows. -/
theorem foldl_writeCycle_length :
    ∀ (cs : List SleepCycle) (init : List CycFields),
      (List.foldl writeCycle init cs).length = init.length := by
  intro cs
  induction cs with
  | nil => intro init; rfl
  | cons c rest ih =>
    intro init
    rw [List.foldl_cons, ih]
    exact writeCycleFrom_length c init 0

/-- Pointwise effect of writing one cycle: the cell at position `i` becomes
the cycle's cells when the label `k + i` is covered, and is untouched
otherwise. -/
theorem writeCycleFrom_getElem (c : SleepCycle) :
    ∀ (fs : List CycFields) (k i : ℕ),
      (writeCycleFrom c k fs)[i]?
        = (fs[i]?).map (fun f => if covers c (k + i) then cycFieldsOf c else f) := by
  intro fs
  induction fs with
  | nil =>
    intro k i
    simp [writeCycleFrom]
  | cons f rest ih =>
    intro k i
    have hexp : writeCycleFrom c k (f :: rest)
        = (if covers c k then cycFieldsOf c else f) :: writeCycleFrom c (k + 1) rest := rfl
    cases i with
    | zero =>
      rw [hexp]
      simp
    | succ j =>
      rw [hexp, List.getElem?_cons_succ, List.getElem?_cons_succ, ih (k + 1) j]
      have harith : (k + 1) + j = k + (j + 1) := by omega
      rw [harith]

/-- Rows covered by no cycle keep their initial cells through the whole
merge loop. -/
theorem foldl_write_not_covered :
    ∀ (cs : List SleepCycle) (init : List CycFields) (i : ℕ),
      (∀ c ∈ cs, ¬ covers c i) → (List.foldl writeCycle init cs)[i]? = init[i]? := by
  intro cs
  induction cs with
  | nil =>
    intro init i hnc
    rfl
  | cons c rest ih =>
    intro init i hnc
    rw [List.foldl_cons,
      ih (writeCycle init c) i (fun c2 hc2 => hnc c2 (List.mem_cons_of_mem c hc2)),
      writeCycle, writeCycleFrom_getElem c init 0 i]
    have hnotc : ¬ covers c i := hnc c (List.mem_cons_self c rest)
    cases hx : init[i]? with
    | none => rfl
    | some f => simp [hnotc]

/-- A row covered by exactly one cycle of the table ends up with that
cycle's cells (the code's last-write-wins collapses to this when ranges do
not overlap). -/
theorem foldl_write_covered :
    ∀ (cs : List SleepCycle) (init : List CycFields) (i : ℕ) (c : SleepCycle),
      c ∈ cs → covers c i → (∀ c2 ∈ cs, covers c2 i → c2 = c) → i < init.length →
      (List.foldl writeCycle init cs)[i]? = some (cycFieldsOf c) := by
  intro cs
  induction cs with
  | nil =>
    intro init i c hmem
    simp at hmem
  | cons d rest ih =>
    intro init i c hmem hcov huniq hlen
    rw [List.foldl_cons]
    by_cases hrest : ∃ c2 ∈ rest, covers c2 i
    · obtain ⟨c2, hc2m, hc2c⟩ := hrest
      have hc2eq : c2 = c := huniq c2 (List.mem_cons_of_mem d hc2m) hc2c
      rw [hc2eq] at hc2m
      refine ih (writeCycle init d) i c hc2m hcov
        (fun c3 hc3 hc3c => huniq c3 (List.mem_cons_of_mem d hc3) hc3c) ?_
      rw [writeCycle, writeCycleFrom_length]
      exact hlen
    · push_neg at hrest
      rw [foldl_write_not_covered rest (writeCycle init d) i hrest]
      have hcd : c = d := by
        rcases List.mem_cons.mp hmem with hh | hh
        · exact hh
        · exact absurd hcov (hrest c hh)
      rw [hcd] at hcov ⊢
      rw [writeCycle, writeCycleFrom_getElem d init 0 i]
      cases hx : init[i]? with
      | none =>
        have := List.getElem?_eq_none_iff.mp hx
        omega
      | some f => simp [hcov]

/-- C4: after the merge with a non-empty cycle table whose index bounds
agree with its entry-id bounds (as `_detect_cycle_offsets` constructs them)
over a hypnogram with the standard contiguous 1-based Entry column, and
whose entry ranges are pairwise disjoint, every row whose Entry lies in
`[Onset_Entry, Offset_Entry]` of a cycle carries that cycle's id, duration
and offset mode, every row outside all ranges has null cycle cells, and the
hypnogram rows themselves are unchanged. -/
theorem merge_cycles_fields (h : List HEntry) (cs : List SleepCycle) (fs : List CycFields)
    (i : ℕ) (e : HEntry)
    (hne : cs ≠ [])
    (hwf : h.enum.all (fun p => decide ((p.2.entry : ℤ) = (p.1 : ℤ) + 1)) = true)
    (hidx : ∀ c ∈ cs, c.onsetIdx = (c.onsetEntry : ℤ) - 1 ∧ c.offsetIdx = c.offsetEntry - 1)
    (hdisj : ∀ c ∈ cs, ∀ c2 ∈ cs, ∀ j : ℕ, j < h.length → covers c j → covers c2 j → c2 = c)
    (hsnd : (update_hypnogram_cycles h cs).2 = some fs)
    (hei : h[i]? = some e) :
    (update_hypnogram_cycles h cs).1 = h ∧
    ((∀ c ∈ cs, ¬ entryInCycle c e) → fs[i]? = some ⟨none, none, none⟩) ∧
    (∀ c ∈ cs, entryInCycle c e → fs[i]? = some (cycFieldsOf c)) := by
  have hlen : i < h.length := (List.getElem?_eq_some.mp hei).1
  have hent : (e.entry : ℤ) = (i : ℤ) + 1 := by
    have hm : (i, e) ∈ h.enum := by
      have hg : h.enum[i]? = some (i, e) := by
        rw [List.getElem?_enum, hei]
        rfl
      exact List.getElem?_mem hg
    have := List.all_eq_true.mp hwf (i, e) hm
    simpa using this
  have hcose : ∀ c ∈ cs, (covers c i ↔ entryInCycle c e) := by
    intro c hc
    obtain ⟨h1, h2⟩ := hidx c hc
    simp only [covers, entryInCycle, h1, h2, hent]
    omega
  cases cs with
  | nil => exact absurd rfl hne
  | cons c0 rest =>
    have hupd : update_hypnogram_cycles h (c0 :: rest)
        = (h, some ((c0 :: rest).foldl writeCycle
            (h.map (fun _ => CycFields.mk none none none)))) := rfl
    rw [hupd] at hsnd
    have hfs : fs = (c0 :: rest).foldl writeCycle
        (h.map (fun _ => CycFields.mk none none none)) := (Option.some.inj hsnd).symm
    rw [hupd]
    refine ⟨rfl, ?_, ?_⟩
    · intro hnone
      have hnc : ∀ c ∈ c0 :: rest, ¬ covers c i := by
        intro c hc hcv
        exact hnone c hc ((hcose c hc).mp hcv)
      rw [hfs, foldl_write_not_covered _ _ i hnc, List.getElem?_map, hei]
      rfl
    · intro c hc hin
      have hcv : covers c i := (hcose c hc).mpr hin
      have huniq2 : ∀ c2 ∈ c0 :: rest, covers c2 i → c2 = c := by
        intro c2 hc2 hcv2
        exact hdisj c hc c2 hc2 i hlen hcv hcv2
      rw [hfs]
      apply foldl_write_covered _ _ i c hc hcv huniq2
      rw [List.length_map]
      exact hlen

/-- Witness for C4: on the minimal recording with one cycle covering
entries 2..3, row 2 (position 1) carries the cycle's cells. -/
theorem merge_cycles_fields_witness :
    (update_hypnogram_cycles hSimple [wCyc]).1 = hSimple ∧
    ((∀ c ∈ [wCyc], ¬ entryInCycle c eREM) →
      [CycFields.mk none none none, cycFieldsOf wCyc, cycFieldsOf wCyc][1]?
        = some ⟨none, none, none⟩) ∧
    (∀ c ∈ [wCyc], entryInCycle c eREM →
      [CycFields.mk none none none, cycFieldsOf wCyc, cycFieldsOf wCyc][1]?
        = some (cycFieldsOf c)) :=
  merge_cycles_fields hSimple [wCyc]
    [CycFields.mk none none none, cycFieldsOf wCyc, cycFieldsOf wCyc] 1 eREM
    (by decide) (by decide) (by decide) (by decide) (by decide) (by decide)

-- ------------------------------------------------------------------
-- C7: order of the emitted cycles
-- ------------------------------------------------------------------

/-- The code-point order on strings is total. -/
theorem charsLe_total : ∀ (a b : List Char), charsLe a b = true ∨ charsLe b a = true := by
  intro a
  induction a with
  | nil =>
    intro b
    left
    rfl
  | cons x as ih =>
    intro b
    cases b with
    | nil =>
      right
      rfl
    | cons y bs =>
      by_cases h1 : x.toNat < y.toNat
      · left
        simp [charsLe, h1]
      · by_cases h2 : y.toNat < x.toNat
        · right
          simp [charsLe, h2]
        · rcases ih bs with hh | hh
          · left
            simp [charsLe, h1, h2, hh]
          · right
            simp [charsLe, h1, h2, hh]

/-- The code-point order on strings is transitive. -/
theorem charsLe_trans :
    ∀ (a b c : List Char), charsLe a b = true → charsLe b c = true → charsLe a c = true := by
  intro a
  induction a with
  | nil =>
    intro b c h1 h2
    rfl
  | cons x as ih =>
    intro b c h1 h2
    cases b with
    | nil => simp [charsLe] at h1
    | cons y bs =>
      cases c with
      | nil => simp [charsLe] at h2
      | cons z cs =>
        simp only [charsLe] at h1 h2 ⊢
        by_cases e1 : x.toNat < y.toNat
        · by_cases e3 : y.toNat < z.toNat
          · have hxz : x.toNat < z.toNat := by omega
            simp [hxz]
          · by_cases e4 : z.toNat < y.toNat
            · simp [e3, e4] at h2
            · have hxz : x.toNat < z.toNat := by omega
              simp [hxz]
        · by_cases e2 : y.toNat < x.toNat
          · simp [e1, e2] at h1
          · simp only [e1, e2, if_false] at h1
            by_cases e3 : y.toNat < z.toNat
            · have hxz : x.toNat < z.toNat := by omega
              simp [hxz]
            · by_cases e4 : z.toNat < y.toNat
              · simp [e3, e4] at h2
              · simp only [e3, e4, if_false] at h2
                have g1 : ¬ x.toNat < z.toNat := by omega
                have g2 : ¬ z.toNat < x.toNat := by omega
                simp only [g1, g2, if_false]
                exact ih bs cs h1 h2

/-- Membership in a sorted insertion. -/
theorem mem_insertSorted : ∀ (x : String) (l : List String) (y : String),
    y ∈ insertSorted x l ↔ y = x ∨ y ∈ l := by
  intro x l
  induction l with
  | nil =>
    intro y
    simp [insertSorted]
  | cons z zs ih =>
    intro y
    by_cases hc : charsLe x.data z.data
    · simp [insertSorted, hc]
    · simp only [insertSorted, hc, Bool.false_eq_true, if_false, List.mem_cons, ih y]
      tauto

/-- Sorted insertion preserves `strLE`-pairwise-sortedness. -/
theorem pairwise_insertSorted (x : String) :
    ∀ (l : List String), l.Pairwise strLE → (insertSorted x l).Pairwise strLE := by
  intro l
  induction l with
  | nil =>
    intro hp
    simp [insertSorted, strLE]
  | cons z zs ih =>
    intro hp
    rw [List.pairwise_cons] at hp
    obtain ⟨hz, hzs⟩ := hp
    by_cases hc : charsLe x.data z.data
    · have hxall : ∀ y ∈ z :: zs, strLE x y := by
        intro y hy
        rcases List.mem_cons.mp hy with rfl | hy2
        · exact hc
        · exact charsLe_trans x.data z.data y.data hc (hz y hy2)
      rw [show insertSorted x (z :: zs) = x :: z :: zs from by simp [insertSorted, hc]]
      rw [List.pairwise_cons]
      exact ⟨hxall, List.pairwise_cons.mpr ⟨hz, hzs⟩⟩
    · have hzx : strLE z x := by
        rcases charsLe_total x.data z.data with hh | hh
        · exact absurd hh hc
        · exact hh
      rw [show insertSorted x (z :: zs) = z :: insertSorted x zs from by
        simp [insertSorted, hc]]
      rw [List.pairwise_cons]
      constructor
      · intro y hy
        rcases (mem_insertSorted x zs y).mp hy with rfl | hy2
        · exact hzx
        · exact hz y hy2
      · exact ih hzs

/-- Insertion sort produces an `strLE`-sorted list. -/
theorem pairwise_insSort : ∀ (l : List String), (insSort l).Pairwise strLE := by
  intro l
  induction l with
  | nil => simp [insSort]
  | cons x xs ih => exact pairwise_insertSorted x (insSort xs) ih

/-- The groupby key order is `strLE`-sorted. -/
theorem pairwise_sortKeys (ks : List String) : (sortKeys ks).Pairwise strLE :=
  pairwise_insSort (dedupKeys ks)

/-- A cycle produced by rule 3 carries the group's key. -/
theorem resolveRule3_cyc (c0 : Run2) (win : List (ℕ × HEntry)) (c : SleepCycle)
    (h : resolveRule3 c0 win = some c) : c.cyc = c0.cyc := by
  rw [resolveRule3] at h
  cases hf : win.find? isLongp with
  | none =>
    simp only [hf] at h
    simp at h
  | some p =>
    obtain ⟨i, e⟩ := p
    simp only [hf] at h
    rw [← Option.some.inj h]

/-- A cycle produced by any of the three rules carries the group's key. -/
theorem resolveRules_cyc (c0 : Run2) (win : List (ℕ × HEntry)) (c : SleepCycle)
    (h : resolveRules c0 win = some c) : c.cyc = c0.cyc := by
  rw [resolveRules] at h
  cases hr : (win.filter isREMp).getLast? with
  | some p =>
    obtain ⟨i, e⟩ := p
    simp only [hr] at h
    rw [← Option.some.inj h]
  | none =>
    simp only [hr] at h
    by_cases hn3 : win.any isN3p
    · simp only [hn3, if_true] at h
      cases hf : firstN3W win with
      | some p =>
        obtain ⟨i, e⟩ := p
        simp only [hf] at h
        rw [← Option.some.inj h]
      | none =>
        simp only [hf] at h
        exact resolveRule3_cyc c0 win c h
    · have hb : win.any isN3p = false := by simpa using hn3
      simp only [hb, Bool.false_eq_true, if_false] at h
      exact resolveRule3_cyc c0 win c h

/-- A resolved group's cycle carries the key of the group's first row. -/
theorem resolveGroup_cyc (hy : List HEntry) (chunk : List Run2) (c : SleepCycle)
    (h : resolveGroup hy chunk = some c) :
    ∃ c0, chunk.head? = some c0 ∧ c.cyc = c0.cyc := by
  cases chunk with
  | nil => simp [resolveGroup] at h
  | cons r rest =>
    refine ⟨r, rfl, ?_⟩
    rw [resolveGroup] at h
    cases hl : (r :: rest).getLast? with
    | none =>
      simp only [List.head?_cons, hl] at h
      simp at h
    | some cl =>
      simp only [List.head?_cons, hl] at h
      cases hg : cl.nextRun with
      | none =>
        simp only [hg] at h
        simp at h
      | some g =>
        simp only [hg] at h
        exact resolveRules_cyc r _ c h

/-- `filterMap` over a sorted key list, with a function that stamps each
produced cycle with its key, yields a key-sorted cycle list. -/
theorem pairwise_filterMap_key :
    ∀ (keys : List String) (F : String → Option SleepCycle),
    (∀ k c, F k = some c → c.cyc = k) → keys.Pairwise strLE →
    (keys.filterMap F).Pairwise (fun a b => strLE a.cyc b.cyc) := by
  intro keys
  induction keys with
  | nil =>
    intro F hF hp
    simp
  | cons k ks ih =>
    intro F hF hp
    rw [List.pairwise_cons] at hp
    obtain ⟨hk, hks⟩ := hp
    cases hFk : F k with
    | none =>
      simp only [List.filterMap_cons, hFk]
      exact ih F hF hks
    | some c =>
      simp only [List.filterMap_cons, hFk]
      rw [List.pairwise_cons]
      constructor
      · intro c2 hc2
        obtain ⟨k2, hk2m, hk2⟩ := List.mem_filterMap.mp hc2
        rw [hF k c hFk, hF k2 c2 hk2]
        exact hk k2 hk2m
      · exact ih F hF hks

/-- C7 (amended): the cycles emitted by `_detect_cycle_offsets` are ordered
by the lexicographic (code-point) order of their "CYC_<n>" string keys —
the iteration order of the string groupby — which coincides with numeric
group order only while group numbers stay below 10, and is not in general
onset order (see the counterexample). -/
theorem detect_cycle_offsets_key_sorted (hypno : List HEntry) (runs : List Run2)
    (cs : List SleepCycle) (hok : detect_cycle_offsets hypno runs = .ok cs) :
    cs.Pairwise (fun a b => strLE a.cyc b.cyc) := by
  rw [detect_cycle_offsets] at hok
  cases hge : hypno.getLast? with
  | none =>
    rw [hge] at hok
    cases hgr : runs.getLast? <;> rw [hgr] at hok <;> simp at hok
  | some he =>
    rw [hge] at hok
    cases hgr : runs.getLast? with
    | none =>
      rw [hgr] at hok
      simp at hok
    | some rl =>
      rw [hgr] at hok
      have hcs : cs = (sortKeys ((setLastNextRun runs (he.onset + he.duration)).map Run2.cyc)).filterMap
          (fun k => resolveGroup hypno ((setLastNextRun runs (he.onset + he.duration)).filter
            (fun r => decide (r.cyc = k)))) := (PResult.ok.inj hok).symm
      rw [hcs]
      refine pairwise_filterMap_key _ _ ?_ (pairwise_sortKeys _)
      intro k c hres
      obtain ⟨c0, hc0, hcyc⟩ := resolveGroup_cyc _ _ _ hres
      have hc0m : c0 ∈ (setLastNextRun runs (he.onset + he.duration)).filter
          (fun r => decide (r.cyc = k)) := List.mem_of_mem_head? hc0
      have hck : c0.cyc = k := of_decide_eq_true (List.mem_filter.mp hc0m).2
      rw [hcyc, hck]

/-- Witness for C7's amended theorem on the minimal recording's single
group. -/
theorem detect_cycle_offsets_key_sorted_witness :
    List.Pairwise (fun a b => strLE a.cyc b.cyc) [cycSimple] :=
  detect_cycle_offsets_key_sorted hSimple [runSimple0] [cycSimple] (by decide)

/-- Counterexample to C7 as stated: on the ten-block recording the cycle
table is emitted in key order CYC_1, CYC_10, CYC_2, ..., so its onsets
start 0, 900, 100 — not non-decreasing in onset, and the groups are not
processed in numeric group-id order. -/
theorem detect_cycles_onset_order_cex :
    nondecQ (cycleOnsets (detect_cycles hTen 10 10)) = false ∧
    (cycleOnsets (detect_cycles hTen 10 10)).take 3 = [0, 900, 100] := by
  refine ⟨by decide, by decide⟩
